import Mathlib

/-!
# owners-counts: alias resolution and membership counting

A shallow embedding of the Go program `owners-counts` (`main.go`,
`owner_utils.go`, `sig_utils.go`) together with theorems about its
alias-resolution and membership-counting engine.

Conventions of the embedding:

* a Go `map[string]V` that is only read, or only extended key by key, is a
  function `String → Option V` (`none` is the "not found" answer `ok = false`);
* a Go pointer `*T` that may be `nil` is an `Option T`; dereferencing `nil`
  panics, which is the result `none` of the enclosing operation (a `nil` alias
  table, a `nil` declaration, a `nil` HTTP request);
* `sets.Set[string]` is a `Finset String`;
* the file system, the YAML library and the GitHub REST service are parameters;
  the GitHub service may answer differently every time it is asked, so it is a
  function of the number of requests made so far;
* `log.Println` lines are not part of the state.
-/

namespace OwnersCounts

/-! ## Data model (`owner_utils.go`, `sig_utils.go`, `main.go`) -/

/-- The `Aliases` struct of `owner_utils.go`: `RepoAliases map[string][]string`. -/
structure Aliases where
  RepoAliases : String → Option (List String)

/-- The fields of `OwnersInfo` (`owner_utils.go`) that `getCounts` reads; the
filters, labels, emeritus lists and options are never read by the program. -/
structure OwnersInfo where
  Approvers : List String
  Reviewers : List String
  RequiredReviewers : List String
  deriving DecidableEq

/-- The field of `Subproject` (`sig_utils.go`) that `getOwnersRoots` reads. -/
structure Subproject where
  Owners : List String

/-- The fields of `Group` (`sig_utils.go`) that `getOwnersRoots` reads. -/
structure Group where
  Dir : String
  Subprojects : List Subproject

/-- The `Context` struct of `sig_utils.go`, the parsed `sigs.yaml`. -/
structure Context where
  Sigs : List Group
  WorkingGroups : List Group
  UserGroups : List Group
  Committees : List Group

/-- The part of `*http.Response` that `checkIfValidGHUser` reads. -/
structure Response where
  StatusCode : Nat

/-- The constant `http.StatusOK`. -/
def StatusOK : Nat := 200

/-- The package `net/http` and the GitHub REST service as the program sees them.

* `NewRequest url` is the error of `http.NewRequest("GET", url, nil)`, `none` for
  `err == nil`; with an error the returned request is `nil`. The call fails when
  `url` does not parse, for instance on a malformed percent escape.
* `Do n user` is the outcome `(resp, err)` of the `n`-th `client.Do` of the run
  (counting from zero) when the request asks for `user`; `Except.error` is a
  transport error. Nothing relates the answers to two different requests. -/
structure GitHub where
  NewRequest : String → Option String
  Do : Nat → String → Except String Response

/-- The expression `fmt.Sprintf("https://api.github.com/users/%s", user)`. -/
def userURL (user : String) : String :=
  "https://api.github.com/users/" ++ user

/-- The `ownerCounter` struct of `main.go`. -/
structure ownerCounter where
  ownerPaths : String → Option String
  reviewers : Finset String
  approvers : Finset String
  ghUserCache : String → Option Bool

/-- A point of an execution: the `ownerCounter` and the list of account names for
which an HTTP request has been sent so far, oldest first. -/
structure Run where
  oc : ownerCounter
  requests : List String

/-- The state `main` builds before any counting: empty sets, empty cache, no
request sent. -/
def Run.init : Run :=
  { oc := { ownerPaths := fun _ => none, reviewers := ∅, approvers := ∅,
            ghUserCache := fun _ => none },
    requests := [] }

/-! ## `main.go` -/

/-- The method `Insert(items ...T)` of `sets.Set`: every item is added in turn. -/
def sets.Insert (s : Finset String) (items : List String) : Finset String :=
  items.foldl (fun acc x => insert x acc) s

/-- The expression `err == nil && resp.StatusCode == http.StatusOK`. -/
def isOK : Except String Response → Bool
  | .ok resp => resp.StatusCode == StatusOK
  | .error _ => false

/-- The method `checkIfValidGHUser` (`main.go` 241-255): a cached answer is
returned as it is. Otherwise the request is built; the error of
`http.NewRequest` is discarded, so when it fails `req` is `nil` and
`req.Header.Set` panics. With a request at hand it is sent, the outcome is
stored in `ghUserCache` and the stored value is returned. -/
def checkIfValidGHUser (gh : GitHub) (r : Run) (user : String) : Option (Bool × Run) :=
  match r.oc.ghUserCache user with
  | some isValid => some (isValid, r)
  | none =>
    match gh.NewRequest (userURL user) with
    | some _ => none
    | none =>
      let v := isOK (gh.Do r.requests.length user)
      some (v, { oc := { r.oc with ghUserCache := fun k =>
                           if k = user then some v else r.oc.ghUserCache k },
                 requests := r.requests ++ [user] })

/-- Which of the two aggregate sets a loop of `computeCount` fills. -/
inductive Target
  | reviewers
  | approvers
  deriving DecidableEq

/-- The set of the `ownerCounter` a loop of `computeCount` fills. -/
def ownerCounter.get (oc : ownerCounter) : Target → Finset String
  | .reviewers => oc.reviewers
  | .approvers => oc.approvers

/-- The statement `oc.reviewers.Insert(items...)`, respectively
`oc.approvers.Insert(items...)`. -/
def Run.Insert (r : Run) (t : Target) (items : List String) : Run :=
  match t with
  | .reviewers => { r with oc := { r.oc with reviewers := sets.Insert r.oc.reviewers items } }
  | .approvers => { r with oc := { r.oc with approvers := sets.Insert r.oc.approvers items } }

/-- One iteration of a loop of `computeCount` (`main.go` 196-216 for the
reviewers, 218-238 for the approvers; the two bodies differ only in the set they
insert into). `alias.RepoAliases` dereferences `alias`, so a `nil` `alias`
panics. When the entity is not a local alias and `kubeAlias` is `nil`, control
reaches the final `Insert(aliases...)` with `aliases` still `nil`. A panic of
`checkIfValidGHUser` is a panic of the iteration. -/
def computeCount.entity (gh : GitHub) (t : Target) (alias_ kubeAlias : Option Aliases)
    (r : Run) (entity : String) : Option Run :=
  match alias_ with
  | none => none
  | some a =>
    match a.RepoAliases entity with
    | some aliases => some (r.Insert t aliases)
    | none =>
      match kubeAlias with
      | none => some (r.Insert t [])
      | some k =>
        match k.RepoAliases entity with
        | some aliases => some (r.Insert t aliases)
        | none =>
          match checkIfValidGHUser gh r entity with
          | none => none
          | some c => if c.1 then some (c.2.Insert t [entity]) else some c.2

/-- The method `computeCount` (`main.go` 195-239): the loop over the reviewers,
then the loop over the approvers. -/
def computeCount (gh : GitHub) (r : Run) (reviewers approvers : List String)
    (alias_ kubeAlias : Option Aliases) : Option Run :=
  (reviewers.foldlM (computeCount.entity gh .reviewers alias_ kubeAlias) r).bind fun r1 =>
    approvers.foldlM (computeCount.entity gh .approvers alias_ kubeAlias) r1

/-- The function `isRepoKube` (`main.go` 257-259):
`strings.Contains(path, "kubernetes/kubernetes")`. -/
def isRepoKube (path : String) : Bool :=
  decide ("kubernetes/kubernetes".toList <:+: path.toList)

/-- The function `validateGroup` (`main.go` 261-271): the three
`strings.HasPrefix` cases. -/
def validateGroup (group : String) : Bool :=
  if "sig-".toList.isPrefixOf group.toList then true
  else if "wg-".toList.isPrefixOf group.toList then true
  else if "committee-".toList.isPrefixOf group.toList then true
  else false

/-- The function `getOwnersRoots` (`main.go` 87-98): the loop over `ctx.Sigs`,
with the inner loop appending `subproject.Owners`. -/
def getOwnersRoots (ctx : Context) (group : String) : List String :=
  ctx.Sigs.foldl
    (fun owners sig =>
      if sig.Dir ≠ group then owners
      else sig.Subprojects.foldl (fun owners subproject => owners ++ subproject.Owners) owners)
    []

/-! ## `owner_utils.go` -/

/-- The operating system and the libraries the program calls. A Go result
`(v, err)` is a pair whose second component is `none` for `err == nil`.

* `ReadFile` is `os.ReadFile`;
* `Stat` is the error of `os.Stat`;
* `Abs` is the path of `filepath.Abs` (every caller discards its error);
* `Join` is `filepath.Join` of two elements;
* `UnmarshalAliases` is `yaml.UnmarshalStrict(bytes, &config)` for
  `config := &Aliases{}`: the value of `config` after the call, and the error;
* `UnmarshalOwnersInfo` is the same for `config := &OwnersInfo{}`. -/
structure Env where
  ReadFile : String → Except String String
  Stat : String → Option String
  Abs : String → String
  Join : String → String → String
  UnmarshalAliases : String → Option Aliases × Option String
  UnmarshalOwnersInfo : String → Option OwnersInfo × Option String

/-- The function `GetOwnerAliases` (`owner_utils.go` 39-51). -/
def GetOwnerAliases (env : Env) (filename : String) : Option Aliases × Option String :=
  match env.ReadFile filename with
  | .error err => (none, some err)
  | .ok yamlFile =>
    match env.UnmarshalAliases yamlFile with
    | (_, some err) => (none, some err)
    | (config, none) => (config, none)

/-- The function `GetOwnersInfoFromBytes` (`owner_utils.go` 67-74). -/
def GetOwnersInfoFromBytes (env : Env) (bytes : String) : Option OwnersInfo × Option String :=
  match env.UnmarshalOwnersInfo bytes with
  | (_, some err) => (none, some err)
  | (config, none) => (config, none)

/-- The function `GetOwnersInfo` (`owner_utils.go` 53-65). -/
def GetOwnersInfo (env : Env) (file : String) : Option OwnersInfo × Option String :=
  let filename := env.Abs file
  match env.ReadFile filename with
  | .error err => (none, some err)
  | .ok bytes =>
    match GetOwnersInfoFromBytes env bytes with
    | (_, some err) => (none, some err)
    | (config, none) => (config, none)

/-- The function `GetOwnersAliasesFile` (`owner_utils.go` 76-83). -/
def GetOwnersAliasesFile (env : Env) (root : String) : String × Option String :=
  let aliasPath := env.Abs (env.Join root "OWNERS_ALIASES")
  match env.Stat aliasPath with
  | none => (aliasPath, none)
  | some err => ("", some err)

/-! ## `getCounts`, one repository -/

/-- The order `lhs <= rhs` of Go strings that `List()` sorts by: lexicographic
on the bytes of the UTF-8 encoding, which is the lexicographic order on the
code points compared here. -/
def lexLE : List Char → List Char → Bool
  | [], _ => true
  | _ :: _, [] => false
  | a :: as, b :: bs => decide (a.toNat < b.toNat) || (a.toNat == b.toNat && lexLE as bs)

/-- The expression `sets.NewString(xs...).Union(sets.NewString(ys...)).List()`
(`main.go` 183-184): the members of the union, each once, in sorted order. -/
def unionList (xs ys : List String) : List String :=
  ((xs ++ ys).dedup).insertionSort (fun a b => lexLE a.toList b.toList = true)

/-- Lines 158-168 of `getCounts`: the alias table of the repository being
processed. It starts as an empty mapping and, when an `OWNERS_ALIASES` file was
found, is replaced by what `GetOwnerAliases` returns; the error is only
logged. -/
def getCounts.alias (env : Env) (aliasRoot : String) : Option Aliases :=
  let aliasesPath := (GetOwnersAliasesFile env aliasRoot).1
  let alias_ : Option Aliases := some { RepoAliases := fun _ => none }
  if aliasesPath.length > 0 then (GetOwnerAliases env aliasesPath).1 else alias_

/-- Lines 169-175 of `getCounts`: the fallback table. For the canonical
repository it is the local table; otherwise it is what `GetOwnerAliases` returns
for the canonical checkout, both errors being discarded. -/
def getCounts.kubeAlias (env : Env) (url : String) (alias_ : Option Aliases) : Option Aliases :=
  if isRepoKube url then alias_
  else
    let kubeAliasPath := (GetOwnersAliasesFile env (env.Join ".." "kubernetes-org-kubernetes")).1
    (GetOwnerAliases env kubeAliasPath).1

/-- One iteration of the loop over the OWNERS files (`main.go` 177-186): a file
that cannot be read or parsed is skipped; `info.Reviewers` dereferences
`info`. -/
def getCounts.file (env : Env) (gh : GitHub) (alias_ kubeAlias : Option Aliases)
    (r : Run) (ownerFile : String) : Option Run :=
  match GetOwnersInfo env ownerFile with
  | (_, some _) => some r
  | (none, none) => none
  | (some info, none) =>
    computeCount gh r (unionList info.Reviewers info.RequiredReviewers) info.Approvers
      alias_ kubeAlias

/-- The loop over the OWNERS files of one repository (`main.go` 177-186). -/
def getCounts.files (env : Env) (gh : GitHub) (r : Run) (owners : List String)
    (alias_ kubeAlias : Option Aliases) : Option Run :=
  owners.foldlM (getCounts.file env gh alias_ kubeAlias) r

/-- Lines 152-186 of `getCounts` for one repository whose directory and root
were found: `url` is the key of `ownerPaths`, `root` the directory of the
declared root path, `owners` the result of `GetOwnerFiles(root)`. The function
`subprojectInSubDir` is not among the sources and is a parameter. -/
def getCounts.repo (env : Env) (gh : GitHub) (subprojectInSubDir : String → Bool) (r : Run)
    (url root : String) (owners : List String) : Option Run :=
  let aliasRoot := if subprojectInSubDir url then "." else root
  let alias_ := getCounts.alias env aliasRoot
  let kubeAlias := getCounts.kubeAlias env url alias_
  getCounts.files env gh r owners alias_ kubeAlias

/-! ## Predicates used in the statements and proofs -/

/-- The state `r2` extends `r`: both aggregate sets have only grown and every
entry of the validation cache is still there, unchanged. -/
def Run.Extends (r r2 : Run) : Prop :=
  (∀ t n, n ∈ r.oc.get t → n ∈ r2.oc.get t) ∧
  ∀ n b, r.oc.ghUserCache n = some b → r2.oc.ghUserCache n = some b

/-- The entity `e` has nothing left to contribute to the set `t` in state `r`:
its alias expansion is already in the set, or it is a literal name whose
validation is cached and, when valid, is already in the set. -/
def Settled (t : Target) (alias_ kubeAlias : Option Aliases) (r : Run) (e : String) : Prop :=
  match alias_ with
  | none => False
  | some a =>
    match a.RepoAliases e with
    | some xs => ∀ n ∈ xs, n ∈ r.oc.get t
    | none =>
      match kubeAlias with
      | none => True
      | some k =>
        match k.RepoAliases e with
        | some xs => ∀ n ∈ xs, n ∈ r.oc.get t
        | none => ∃ b, r.oc.ghUserCache e = some b ∧ (b = true → e ∈ r.oc.get t)

/-- One call of `computeCount`: its four arguments. -/
structure Call where
  reviewers : List String
  approvers : List String
  alias_ : Option Aliases
  kubeAlias : Option Aliases

/-- A sequence of calls of `computeCount` on one `ownerCounter`, as `getCounts`
makes them; a panic ends the sequence. -/
def computeCount.calls (gh : GitHub) (r : Run) (calls : List Call) : Option Run :=
  calls.foldlM (fun s c => computeCount gh s c.reviewers c.approvers c.alias_ c.kubeAlias) r

/-- The name `n` is a member of the expansion of some key of one of the two
alias tables. -/
def AliasTarget (alias_ kubeAlias : Option Aliases) (n : String) : Prop :=
  ∃ tbl, (alias_ = some tbl ∨ kubeAlias = some tbl) ∧
    ∃ key xs, tbl.RepoAliases key = some xs ∧ n ∈ xs

/-- Every member of either aggregate set satisfies `P` or is cached as valid,
and every name cached as valid was answered with status 200 by some request. -/
def Run.Sound (gh : GitHub) (P : String → Prop) (r : Run) : Prop :=
  (∀ t n, n ∈ r.oc.get t → P n ∨ r.oc.ghUserCache n = some true) ∧
  ∀ n, r.oc.ghUserCache n = some true → ∃ i, isOK (gh.Do i n) = true

/-- The validator can answer for `user` in state `r`: the name is cached, or a
request for it can be built. -/
def CanAsk (gh : GitHub) (r : Run) (user : String) : Prop :=
  r.oc.ghUserCache user ≠ none ∨ gh.NewRequest (userURL user) = none

/-- The condition `checkIfValidGHUser(name) is true`, asked in state `r`; it does
not hold when the call panics. -/
def isValidIn (gh : GitHub) (r : Run) (name : String) : Bool :=
  match checkIfValidGHUser gh r name with
  | some c => c.1
  | none => false

/-- The resolution of an entity name as the specification words it (its
section 4.2, with both tables supplied): `local[name]` if `name` is a key of
`local`, else `fallback[name]` if it is a key of `fallback`, else the name
itself if the validator says it is valid, else nothing. This definition is
written from the specification, to be compared with `computeCount`. -/
def Resolve (valid : String → Bool) (loc fallback : Aliases) (name : String) : List String :=
  match loc.RepoAliases name with
  | some xs => xs
  | none =>
    match fallback.RepoAliases name with
    | some xs => xs
    | none => if valid name then [name] else []

/-- The entity `e` occurs in the list `field info` of a declaration `info` that
`GetOwnersInfo` parses from one of the files `owners`. -/
def Declares (env : Env) (owners : List String) (field : OwnersInfo → List String)
    (e : String) : Prop :=
  ∃ f ∈ owners, ∃ info, GetOwnersInfo env f = (some info, none) ∧ e ∈ field info

/-! ## Concrete inputs -/

/-- A local alias table with the single alias `team-a`. -/
def exLocal : Aliases :=
  { RepoAliases := fun key => if key = "team-a" then some ["alice", "bob"] else none }

/-- A fallback alias table with the single alias `team-b`; it also gives
`team-a` an expansion that differs from the local one. -/
def exFallback : Aliases :=
  { RepoAliases := fun key =>
      if key = "team-b" then some ["erin"]
      else if key = "team-a" then some ["mallory"]
      else none }

/-- An alias table without any alias. -/
def exEmpty : Aliases :=
  { RepoAliases := fun _ => none }

/-- A service that knows the account `carol` and no other. No request can be
built for the names `%zz` and `100%`, whose percent escapes `url.Parse`
rejects. -/
def exGitHub : GitHub where
  NewRequest := fun url =>
    if url = userURL "%zz" then some "invalid URL escape %zz"
    else if url = userURL "100%" then some "invalid URL escape %"
    else none
  Do := fun _ user =>
    if user = "carol" then .ok { StatusCode := 200 } else .ok { StatusCode := 404 }

/-- A service that answers the first request of the run with status 200 and
fails with a transport error ever after; every request can be built. -/
def exFlaky : GitHub where
  NewRequest := fun _ => none
  Do := fun i _ => if i = 0 then .ok { StatusCode := 200 } else .error "connection reset"

/-- The key of `ownerPaths` of a repository other than kubernetes/kubernetes. -/
def exURL : String := "https://raw.githubusercontent.com/kubernetes-sigs/kind/main/OWNERS"

/-- A checkout with one OWNERS file, the declaration of the scenario of the
specification, and no OWNERS_ALIASES file anywhere: neither in the repository
nor in a checkout of the canonical repository. -/
def exEnv : Env where
  ReadFile := fun path =>
    if path = "./OWNERS" then .ok "owners" else .error "no such file or directory"
  Stat := fun _ => some "no such file or directory"
  Abs := fun path => path
  Join := fun dir name => dir ++ "/" ++ name
  UnmarshalAliases := fun _ => (some { RepoAliases := fun _ => none }, none)
  UnmarshalOwnersInfo := fun bytes =>
    if bytes = "owners" then
      (some { Approvers := ["carol"], Reviewers := ["team-a"], RequiredReviewers := ["bob"] }, none)
    else (some { Approvers := [], Reviewers := [], RequiredReviewers := [] }, none)

/-- A checkout whose OWNERS_ALIASES file exists but is not valid YAML, with one
OWNERS file that names the reviewer `carol`. -/
def exEnvBrokenAliases : Env where
  ReadFile := fun path =>
    if path = "./OWNERS" then .ok "owners"
    else if path = "./OWNERS_ALIASES" then .ok "aliases: ["
    else .error "no such file or directory"
  Stat := fun path =>
    if path = "./OWNERS_ALIASES" then none else some "no such file or directory"
  Abs := fun path => path
  Join := fun dir name => dir ++ "/" ++ name
  UnmarshalAliases := fun _ =>
    (some { RepoAliases := fun _ => none }, some "yaml: did not find expected node content")
  UnmarshalOwnersInfo := fun _ =>
    (some { Approvers := [], Reviewers := ["carol"], RequiredReviewers := [] }, none)

/-- A registry with one special interest group and one committee, each with one
subproject. -/
def exContext : Context where
  Sigs := [{ Dir := "sig-testing", Subprojects := [{ Owners := [exURL] }] }]
  WorkingGroups := []
  UserGroups := []
  Committees :=
    [{ Dir := "committee-steering",
       Subprojects := [{ Owners := ["https://raw.githubusercontent.com/kubernetes/steering/main/OWNERS"] }] }]

/-! ## Basic facts -/

set_option maxRecDepth 8000

theorem sets.mem_Insert (s : Finset String) (items : List String) (n : String) :
    n ∈ sets.Insert s items ↔ n ∈ s ∨ n ∈ items := by
  unfold sets.Insert
  induction items generalizing s with
  | nil => simp
  | cons x xs ih =>
    rw [List.foldl_cons, ih]
    simp only [Finset.mem_insert, List.mem_cons]
    tauto

theorem sets.Insert_eq_union (s : Finset String) (items : List String) :
    sets.Insert s items = s ∪ items.toFinset := by
  ext n
  simp [sets.mem_Insert]

theorem Run.Insert_get_same (r : Run) (t : Target) (items : List String) :
    (r.Insert t items).oc.get t = r.oc.get t ∪ items.toFinset := by
  cases t <;> simp [Run.Insert, ownerCounter.get, sets.Insert_eq_union]

theorem Run.Insert_get_other (r : Run) (t u : Target) (items : List String) (h : u ≠ t) :
    (r.Insert t items).oc.get u = r.oc.get u := by
  cases t <;> cases u <;> simp_all [Run.Insert, ownerCounter.get]

theorem Run.Insert_ghUserCache (r : Run) (t : Target) (items : List String) :
    (r.Insert t items).oc.ghUserCache = r.oc.ghUserCache := by
  cases t <;> rfl

theorem Run.Insert_requests (r : Run) (t : Target) (items : List String) :
    (r.Insert t items).requests = r.requests := by
  cases t <;> rfl

theorem Run.Insert_ownerPaths (r : Run) (t : Target) (items : List String) :
    (r.Insert t items).oc.ownerPaths = r.oc.ownerPaths := by
  cases t <;> rfl

/-- Inserting names that are already members changes nothing. -/
theorem Run.Insert_absorb (r : Run) (t : Target) (items : List String)
    (h : ∀ n ∈ items, n ∈ r.oc.get t) : r.Insert t items = r := by
  have hs : sets.Insert (r.oc.get t) items = r.oc.get t := by
    rw [sets.Insert_eq_union]
    apply Finset.union_eq_left.mpr
    intro n hn
    exact h n (List.mem_toFinset.mp hn)
  rcases r with ⟨⟨p, rv, ap, c⟩, q⟩
  cases t
  · simp only [Run.Insert, ownerCounter.get] at hs ⊢
    rw [hs]
  · simp only [Run.Insert, ownerCounter.get] at hs ⊢
    rw [hs]

/-! ## The validator -/

theorem checkIfValidGHUser_hit (gh : GitHub) (r : Run) (user : String) (b : Bool)
    (h : r.oc.ghUserCache user = some b) : checkIfValidGHUser gh r user = some (b, r) := by
  simp [checkIfValidGHUser, h]

theorem checkIfValidGHUser_miss (gh : GitHub) (r : Run) (user : String)
    (h : r.oc.ghUserCache user = none) (hreq : gh.NewRequest (userURL user) = none) :
    checkIfValidGHUser gh r user =
      some (isOK (gh.Do r.requests.length user),
        { oc := { r.oc with ghUserCache := fun k =>
                    if k = user then some (isOK (gh.Do r.requests.length user))
                    else r.oc.ghUserCache k },
          requests := r.requests ++ [user] }) := by
  simp [checkIfValidGHUser, h, hreq]

/-- On a cache miss, a request that cannot be built makes the call panic. -/
theorem checkIfValidGHUser_nil_request (gh : GitHub) (r : Run) (user err : String)
    (h : r.oc.ghUserCache user = none) (hreq : gh.NewRequest (userURL user) = some err) :
    checkIfValidGHUser gh r user = none := by
  simp [checkIfValidGHUser, h, hreq]

/-- The three ways a call can go: a hit, a panic, or a request sent. -/
theorem checkIfValidGHUser_cases (gh : GitHub) (r : Run) (user : String) :
    (∃ b, r.oc.ghUserCache user = some b ∧ checkIfValidGHUser gh r user = some (b, r)) ∨
    (r.oc.ghUserCache user = none ∧ (∃ err, gh.NewRequest (userURL user) = some err) ∧
      checkIfValidGHUser gh r user = none) ∨
    (r.oc.ghUserCache user = none ∧ gh.NewRequest (userURL user) = none ∧
      checkIfValidGHUser gh r user =
        some (isOK (gh.Do r.requests.length user),
          { oc := { r.oc with ghUserCache := fun k =>
                      if k = user then some (isOK (gh.Do r.requests.length user))
                      else r.oc.ghUserCache k },
            requests := r.requests ++ [user] })) := by
  cases hu : r.oc.ghUserCache user with
  | some b => exact Or.inl ⟨b, rfl, checkIfValidGHUser_hit gh r user b hu⟩
  | none =>
    cases hq : gh.NewRequest (userURL user) with
    | some err => exact Or.inr (Or.inl ⟨rfl, ⟨err, rfl⟩, checkIfValidGHUser_nil_request gh r user err hu hq⟩)
    | none => exact Or.inr (Or.inr ⟨rfl, rfl, checkIfValidGHUser_miss gh r user hu hq⟩)

/-- The call returns when the name is cached or its request can be built. -/
theorem checkIfValidGHUser_returns (gh : GitHub) (r : Run) (user : String)
    (h : CanAsk gh r user) : ∃ c, checkIfValidGHUser gh r user = some c := by
  rcases checkIfValidGHUser_cases gh r user with ⟨b, _, hc⟩ | ⟨hmiss, ⟨err, herr⟩, _⟩ | ⟨_, _, hc⟩
  · exact ⟨_, hc⟩
  · rcases h with h | h
    · exact absurd hmiss h
    · rw [h] at herr
      exact Option.noConfusion herr
  · exact ⟨_, hc⟩

/-- After a call that returns, the cache holds the returned value for the
queried name. -/
theorem checkIfValidGHUser_cached (gh : GitHub) (r : Run) (user : String) (c : Bool × Run)
    (h : checkIfValidGHUser gh r user = some c) : c.2.oc.ghUserCache user = some c.1 := by
  rcases checkIfValidGHUser_cases gh r user with ⟨b, hb, hc⟩ | ⟨_, _, hc⟩ | ⟨_, _, hc⟩
  · rw [hc] at h
    cases h
    exact hb
  · rw [hc] at h
    exact Option.noConfusion h
  · rw [hc] at h
    cases h
    simp

/-- A call never changes or removes an entry of the cache. -/
theorem checkIfValidGHUser_keeps (gh : GitHub) (r : Run) (user : String) (c : Bool × Run)
    (h : checkIfValidGHUser gh r user = some c) (n : String) (b : Bool)
    (hn : r.oc.ghUserCache n = some b) : c.2.oc.ghUserCache n = some b := by
  rcases checkIfValidGHUser_cases gh r user with ⟨b2, _, hc⟩ | ⟨_, _, hc⟩ | ⟨hu, _, hc⟩
  · rw [hc] at h
    cases h
    exact hn
  · rw [hc] at h
    exact Option.noConfusion h
  · rw [hc] at h
    cases h
    have hne : n ≠ user := by
      rintro rfl
      rw [hn] at hu
      exact Option.noConfusion hu
    simp [hne, hn]

/-- A call leaves both aggregate sets alone. -/
theorem checkIfValidGHUser_get (gh : GitHub) (r : Run) (user : String) (c : Bool × Run)
    (h : checkIfValidGHUser gh r user = some c) (t : Target) : c.2.oc.get t = r.oc.get t := by
  rcases checkIfValidGHUser_cases gh r user with ⟨b2, _, hc⟩ | ⟨_, _, hc⟩ | ⟨_, _, hc⟩
  · rw [hc] at h
    cases h
    rfl
  · rw [hc] at h
    exact Option.noConfusion h
  · rw [hc] at h
    cases h
    cases t <;> rfl

theorem checkIfValidGHUser_requests (gh : GitHub) (r : Run) (user : String) (c : Bool × Run)
    (h : checkIfValidGHUser gh r user = some c) :
    (r.oc.ghUserCache user ≠ none ∧ c.2.requests = r.requests) ∨
    (r.oc.ghUserCache user = none ∧ c.2.requests = r.requests ++ [user]) := by
  rcases checkIfValidGHUser_cases gh r user with ⟨b2, hb, hc⟩ | ⟨_, _, hc⟩ | ⟨hu, _, hc⟩
  · rw [hc] at h
    cases h
    exact Or.inl ⟨by simp [hb], rfl⟩
  · rw [hc] at h
    exact Option.noConfusion h
  · rw [hc] at h
    cases h
    exact Or.inr ⟨hu, rfl⟩

/-- A second call for the same name is answered from the cache, whatever the
service would say and whether or not a request could be built. -/
theorem checkIfValidGHUser_again (gh gh2 : GitHub) (r : Run) (user : String) (c : Bool × Run)
    (h : checkIfValidGHUser gh r user = some c) :
    checkIfValidGHUser gh2 c.2 user = some c :=
  checkIfValidGHUser_hit gh2 c.2 user c.1 (checkIfValidGHUser_cached gh r user c h)

theorem checkIfValidGHUser_true_origin (gh : GitHub) (r : Run) (user : String) (c : Bool × Run)
    (h : checkIfValidGHUser gh r user = some c) (n : String)
    (hn : c.2.oc.ghUserCache n = some true) :
    r.oc.ghUserCache n = some true ∨
      (n = user ∧ isOK (gh.Do r.requests.length user) = true) := by
  rcases checkIfValidGHUser_cases gh r user with ⟨b2, _, hc⟩ | ⟨_, _, hc⟩ | ⟨_, _, hc⟩
  · rw [hc] at h
    cases h
    exact Or.inl hn
  · rw [hc] at h
    exact Option.noConfusion h
  · rw [hc] at h
    cases h
    by_cases hnu : n = user
    · right
      simpa [hnu] using hn
    · left
      simpa [hnu] using hn

theorem isValidIn_hit (gh : GitHub) (r : Run) (user : String) (b : Bool)
    (h : r.oc.ghUserCache user = some b) : isValidIn gh r user = b := by
  simp [isValidIn, checkIfValidGHUser_hit gh r user b h]

/-- The requests sent by a sequence of validations that returns: no name is
asked for twice, only names that were not cached are asked for, and cached
entries survive. -/
theorem checkIfValidGHUser_foldlM (gh : GitHub) (names : List String) (r r2 : Run)
    (h : names.foldlM (fun s n => (checkIfValidGHUser gh s n).map Prod.snd) r = some r2) :
    (∃ new, r2.requests = r.requests ++ new ∧ new.Nodup ∧
        ∀ n ∈ new, n ∈ names ∧ r.oc.ghUserCache n = none) ∧
    ∀ n b, r.oc.ghUserCache n = some b → r2.oc.ghUserCache n = some b := by
  induction names generalizing r with
  | nil =>
    simp only [List.foldlM, pure, Option.some.injEq] at h
    subst h
    exact ⟨⟨[], by simp⟩, fun n b hn => hn⟩
  | cons x xs ih =>
    rw [List.foldlM_cons] at h
    cases hc : checkIfValidGHUser gh r x with
    | none => simp [hc] at h
    | some c =>
      simp only [hc, Option.map_some', Option.some_bind] at h
      obtain ⟨⟨new1, hreq, hnd, hnew⟩, hkeep⟩ := ih c.2 h
      have hback : ∀ n, c.2.oc.ghUserCache n = none → r.oc.ghUserCache n = none := by
        intro n hn
        cases hr : r.oc.ghUserCache n with
        | none => rfl
        | some b =>
          rw [checkIfValidGHUser_keeps gh r x c hc n b hr] at hn
          exact Option.noConfusion hn
      refine ⟨?_, fun n b hn => hkeep n b (checkIfValidGHUser_keeps gh r x c hc n b hn)⟩
      rcases checkIfValidGHUser_requests gh r x c hc with ⟨_, hsame⟩ | ⟨hmiss, happ⟩
      · refine ⟨new1, ?_, hnd, fun n hn => ⟨List.mem_cons_of_mem _ (hnew n hn).1,
          hback n (hnew n hn).2⟩⟩
        rw [hreq, hsame]
      · refine ⟨x :: new1, ?_, ?_, ?_⟩
        · rw [hreq, happ]
          simp
        · refine List.nodup_cons.mpr ⟨fun hx => ?_, hnd⟩
          have h1 := (hnew x hx).2
          rw [checkIfValidGHUser_cached gh r x c hc] at h1
          exact Option.noConfusion h1
        · intro n hn
          rcases List.mem_cons.mp hn with rfl | hn
          · exact ⟨List.mem_cons_self _ _, hmiss⟩
          · exact ⟨List.mem_cons_of_mem _ (hnew n hn).1, hback n (hnew n hn).2⟩

/-! ## One iteration of `computeCount` -/

theorem computeCount_reviewer_only (gh : GitHub) (r : Run) (entity : String)
    (alias_ kubeAlias : Option Aliases) :
    computeCount gh r [entity] [] alias_ kubeAlias
      = computeCount.entity gh .reviewers alias_ kubeAlias r entity := by
  unfold computeCount
  cases h : computeCount.entity gh .reviewers alias_ kubeAlias r entity <;>
    simp [List.foldlM, h]

theorem computeCount_approver_only (gh : GitHub) (r : Run) (entity : String)
    (alias_ kubeAlias : Option Aliases) :
    computeCount gh r [] [entity] alias_ kubeAlias
      = computeCount.entity gh .approvers alias_ kubeAlias r entity := by
  unfold computeCount
  cases h : computeCount.entity gh .approvers alias_ kubeAlias r entity <;>
    simp [List.foldlM, h]

/-- The iteration for a name that is in neither of the two present tables. -/
theorem computeCount.entity_literal (gh : GitHub) (t : Target) (a k : Aliases) (r : Run)
    (e : String) (ha : a.RepoAliases e = none) (hk : k.RepoAliases e = none) :
    computeCount.entity gh t (some a) (some k) r e =
      (checkIfValidGHUser gh r e).bind fun c =>
        some (c.2.Insert t (if c.1 = true then [e] else [])) := by
  simp only [computeCount.entity, ha, hk]
  cases hc : checkIfValidGHUser gh r e with
  | none => rfl
  | some c =>
    cases hv : c.1 with
    | true => simp [hv]
    | false =>
      simp only [hv, Bool.false_eq_true, if_false, Option.some_bind, Option.some.injEq]
      exact (Run.Insert_absorb c.2 t [] (by simp)).symm

/-- Every iteration that returns is one `Insert`, either of an alias expansion
into the state it started from, or of the validated name (or of nothing) into
the state the validator returned. -/
theorem computeCount.entity_cases (gh : GitHub) (t : Target) (alias_ kubeAlias : Option Aliases)
    (r r1 : Run) (e : String) (h : computeCount.entity gh t alias_ kubeAlias r e = some r1) :
    ∃ a, alias_ = some a ∧
      ((∃ xs, r1 = r.Insert t xs ∧
          (a.RepoAliases e = some xs ∨
            (a.RepoAliases e = none ∧ kubeAlias = none ∧ xs = []) ∨
            (a.RepoAliases e = none ∧ ∃ k, kubeAlias = some k ∧ k.RepoAliases e = some xs))) ∨
        (∃ k c, a.RepoAliases e = none ∧ kubeAlias = some k ∧ k.RepoAliases e = none ∧
          checkIfValidGHUser gh r e = some c ∧
          r1 = c.2.Insert t (if c.1 = true then [e] else []))) := by
  rcases alias_ with _ | a
  · simp [computeCount.entity] at h
  · refine ⟨a, rfl, ?_⟩
    cases ha : a.RepoAliases e with
    | some xs =>
      simp only [computeCount.entity, ha, Option.some.injEq] at h
      exact Or.inl ⟨xs, h.symm, Or.inl rfl⟩
    | none =>
      rcases kubeAlias with _ | k
      · simp only [computeCount.entity, ha, Option.some.injEq] at h
        exact Or.inl ⟨[], h.symm, Or.inr (Or.inl ⟨rfl, rfl, rfl⟩)⟩
      · cases hk : k.RepoAliases e with
        | some xs =>
          simp only [computeCount.entity, ha, hk, Option.some.injEq] at h
          exact Or.inl ⟨xs, h.symm, Or.inr (Or.inr ⟨rfl, k, rfl, hk⟩)⟩
        | none =>
          rw [computeCount.entity_literal gh t a k r e ha hk] at h
          cases hc : checkIfValidGHUser gh r e with
          | none => simp [hc] at h
          | some c =>
            simp only [hc, Option.some_bind, Option.some.injEq] at h
            exact Or.inr ⟨k, c, rfl, rfl, hk, rfl, h.symm⟩

/-! ## The alias resolver inside `computeCount` -/

/-- C1: an entity that is a key of neither the local table nor the present
fallback table is treated as a literal account name. In either loop of
`computeCount`, when `checkIfValidGHUser(entity)` returns true the iteration
inserts exactly the entity name into the set of that loop; when it returns
false the iteration leaves that set as it was; the other set is never touched.
A reviewer entry goes to `reviewers`, an approver entry to `approvers`. The
validator returns when the name is cached or a request for it can be built;
when it panics instead the iteration panics with it and nothing is inserted. -/
theorem computeCount_literal_iff_valid (gh : GitHub) (r : Run) (t : Target) (a k : Aliases)
    (entity : String) (hl : a.RepoAliases entity = none) (hk : k.RepoAliases entity = none) :
    (∀ r0, checkIfValidGHUser gh r entity = some (true, r0) →
      computeCount.entity gh t (some a) (some k) r entity = some (r0.Insert t [entity]) ∧
      (r0.Insert t [entity]).oc.get t = insert entity (r.oc.get t) ∧
      (∀ u, u ≠ t → (r0.Insert t [entity]).oc.get u = r.oc.get u)) ∧
    (∀ r0, checkIfValidGHUser gh r entity = some (false, r0) →
      computeCount.entity gh t (some a) (some k) r entity = some r0 ∧
      (∀ u, r0.oc.get u = r.oc.get u)) ∧
    (checkIfValidGHUser gh r entity = none →
      computeCount.entity gh t (some a) (some k) r entity = none) ∧
    (CanAsk gh r entity → ∃ c, checkIfValidGHUser gh r entity = some c) ∧
    computeCount gh r [entity] [] (some a) (some k)
      = computeCount.entity gh .reviewers (some a) (some k) r entity ∧
    computeCount gh r [] [entity] (some a) (some k)
      = computeCount.entity gh .approvers (some a) (some k) r entity := by
  refine ⟨fun r0 h => ⟨?_, ?_, ?_⟩, fun r0 h => ⟨?_, ?_⟩, fun h => ?_,
    checkIfValidGHUser_returns gh r entity,
    computeCount_reviewer_only _ _ _ _ _, computeCount_approver_only _ _ _ _ _⟩
  · rw [computeCount.entity_literal gh t a k r entity hl hk, h]
    rfl
  · rw [Run.Insert_get_same, checkIfValidGHUser_get gh r entity _ h t]
    ext n
    simp [or_comm]
  · intro u hu
    rw [Run.Insert_get_other _ _ _ _ hu]
    exact checkIfValidGHUser_get gh r entity _ h u
  · rw [computeCount.entity_literal gh t a k r entity hl hk, h]
    exact congrArg some (Run.Insert_absorb r0 t [] (by simp))
  · exact fun u => checkIfValidGHUser_get gh r entity _ h u
  · rw [computeCount.entity_literal gh t a k r entity hl hk, h]
    rfl

/-- C2: an entity that is a key of the local table resolves to the local
expansion and to nothing else. Whatever the fallback is (absent, without the
key, or with a different expansion for it) and whatever service the validator
would face, the iteration is the single statement `Insert(local[entity]...)`:
the set of the loop becomes its old value together with the members of
`local[entity]` (so an empty expansion adds nothing), the other set is
untouched, and the validator is not consulted: the cache and the list of
requests are unchanged. -/
theorem computeCount_local_alias_first (gh : GitHub) (r : Run) (t : Target) (a : Aliases)
    (kubeAlias : Option Aliases) (entity : String) (xs : List String)
    (hl : a.RepoAliases entity = some xs) :
    computeCount.entity gh t (some a) kubeAlias r entity = some (r.Insert t xs) ∧
      (r.Insert t xs).oc.get t = r.oc.get t ∪ xs.toFinset ∧
      (∀ u, u ≠ t → (r.Insert t xs).oc.get u = r.oc.get u) ∧
      (r.Insert t xs).oc.ghUserCache = r.oc.ghUserCache ∧
      (r.Insert t xs).requests = r.requests ∧
      (xs = [] → r.Insert t xs = r) ∧
      computeCount gh r [entity] [] (some a) kubeAlias = some (r.Insert .reviewers xs) ∧
      computeCount gh r [] [entity] (some a) kubeAlias = some (r.Insert .approvers xs) := by
  have h : ∀ u, computeCount.entity gh u (some a) kubeAlias r entity = some (r.Insert u xs) := by
    intro u
    simp [computeCount.entity, hl]
  refine ⟨h t, Run.Insert_get_same r t xs,
    fun u hu => Run.Insert_get_other r t u xs hu, Run.Insert_ghUserCache r t xs,
    Run.Insert_requests r t xs, ?_, ?_, ?_⟩
  · rintro rfl
    exact Run.Insert_absorb r t [] (by simp)
  · rw [computeCount_reviewer_only, h]
  · rw [computeCount_approver_only, h]

/-- C3: an entity that is not a key of the local table but is a key of the
fallback table resolves to the fallback expansion. The iteration is the single
statement `Insert(fallback[entity]...)`: the set of the loop becomes its old
value together with the members of `fallback[entity]`, the other set is
untouched, no request is sent and `ghUserCache` is unchanged. -/
theorem computeCount_fallback_alias_no_validation (gh : GitHub) (r : Run) (t : Target)
    (a k : Aliases) (entity : String) (xs : List String)
    (hl : a.RepoAliases entity = none) (hk : k.RepoAliases entity = some xs) :
    computeCount.entity gh t (some a) (some k) r entity = some (r.Insert t xs) ∧
      (r.Insert t xs).oc.get t = r.oc.get t ∪ xs.toFinset ∧
      (∀ u, u ≠ t → (r.Insert t xs).oc.get u = r.oc.get u) ∧
      (r.Insert t xs).oc.ghUserCache = r.oc.ghUserCache ∧
      (r.Insert t xs).requests = r.requests ∧
      computeCount gh r [entity] [] (some a) (some k) = some (r.Insert .reviewers xs) ∧
      computeCount gh r [] [entity] (some a) (some k) = some (r.Insert .approvers xs) := by
  have h : ∀ u, computeCount.entity gh u (some a) (some k) r entity = some (r.Insert u xs) := by
    intro u
    simp [computeCount.entity, hl, hk]
  refine ⟨h t, Run.Insert_get_same r t xs,
    fun u hu => Run.Insert_get_other r t u xs hu, Run.Insert_ghUserCache r t xs,
    Run.Insert_requests r t xs, ?_, ?_⟩
  · rw [computeCount_reviewer_only, h]
  · rw [computeCount_approver_only, h]

/-! ## Monotonicity and idempotence of `computeCount` -/

theorem Run.Extends.refl (r : Run) : r.Extends r :=
  ⟨fun _ _ h => h, fun _ _ h => h⟩

theorem Run.Extends.trans (r1 r2 r3 : Run) (h12 : r1.Extends r2) (h23 : r2.Extends r3) :
    r1.Extends r3 :=
  ⟨fun t n h => h23.1 t n (h12.1 t n h), fun n b h => h23.2 n b (h12.2 n b h)⟩

theorem Run.Extends_Insert (r : Run) (t : Target) (items : List String) :
    r.Extends (r.Insert t items) := by
  refine ⟨fun u n h => ?_, fun n b h => ?_⟩
  · by_cases hu : u = t
    · subst hu
      rw [Run.Insert_get_same]
      exact Finset.mem_union_left _ h
    · rw [Run.Insert_get_other _ _ _ _ hu]
      exact h
  · rw [Run.Insert_ghUserCache]
    exact h

theorem Run.Extends_check (gh : GitHub) (r : Run) (user : String) (c : Bool × Run)
    (h : checkIfValidGHUser gh r user = some c) : r.Extends c.2 :=
  ⟨fun t n hn => by rw [checkIfValidGHUser_get gh r user c h t]; exact hn,
    fun n b hn => checkIfValidGHUser_keeps gh r user c h n b hn⟩

theorem CanAsk_of_extends (gh : GitHub) (r r2 : Run) (e : String) (h : CanAsk gh r e)
    (hx : r.Extends r2) : CanAsk gh r2 e := by
  rcases h with h | h
  · left
    cases hc : r.oc.ghUserCache e with
    | none => exact absurd hc h
    | some b => rw [hx.2 e b hc]; simp
  · exact Or.inr h

/-- Every iteration of `computeCount` only extends the state. -/
theorem computeCount.entity_extends (gh : GitHub) (t : Target) (alias_ kubeAlias : Option Aliases)
    (r r1 : Run) (e : String) (h : computeCount.entity gh t alias_ kubeAlias r e = some r1) :
    r.Extends r1 := by
  obtain ⟨a, _, hcase⟩ := computeCount.entity_cases gh t alias_ kubeAlias r r1 e h
  rcases hcase with ⟨xs, rfl, _⟩ | ⟨k, c, _, _, _, hc, rfl⟩
  · exact Run.Extends_Insert _ _ _
  · exact Run.Extends.trans _ _ _ (Run.Extends_check gh r e c hc) (Run.Extends_Insert _ _ _)

theorem Settled.mono (t : Target) (alias_ kubeAlias : Option Aliases) (r r2 : Run) (e : String)
    (h : Settled t alias_ kubeAlias r e) (hx : r.Extends r2) :
    Settled t alias_ kubeAlias r2 e := by
  rcases alias_ with _ | a
  · simp [Settled] at h
  · cases ha : a.RepoAliases e with
    | some xs =>
      simp only [Settled, ha] at h ⊢
      exact fun n hn => hx.1 t n (h n hn)
    | none =>
      rcases kubeAlias with _ | k
      · simp [Settled, ha]
      · cases hk : k.RepoAliases e with
        | some xs =>
          simp only [Settled, ha, hk] at h ⊢
          exact fun n hn => hx.1 t n (h n hn)
        | none =>
          simp only [Settled, ha, hk] at h ⊢
          obtain ⟨b, hb, hin⟩ := h
          exact ⟨b, hx.2 e b hb, fun hb2 => hx.1 t e (hin hb2)⟩

/-- An iteration leaves its entity settled. -/
theorem computeCount.entity_settles (gh : GitHub) (t : Target) (alias_ kubeAlias : Option Aliases)
    (r r1 : Run) (e : String) (h : computeCount.entity gh t alias_ kubeAlias r e = some r1) :
    Settled t alias_ kubeAlias r1 e := by
  obtain ⟨a, rfl, hcase⟩ := computeCount.entity_cases gh t alias_ kubeAlias r r1 e h
  have hin : ∀ (r0 : Run) (xs : List String), ∀ n ∈ xs, n ∈ (r0.Insert t xs).oc.get t := by
    intro r0 xs n hn
    rw [Run.Insert_get_same]
    exact Finset.mem_union_right _ (List.mem_toFinset.mpr hn)
  rcases hcase with ⟨xs, rfl, ha | ⟨ha, rfl, _⟩ | ⟨ha, k, rfl, hk⟩⟩ | ⟨k, c, ha, rfl, hk, hc, rfl⟩
  · simp only [Settled, ha]
    exact hin r xs
  · simp [Settled, ha]
  · simp only [Settled, ha, hk]
    exact hin r xs
  · simp only [Settled, ha, hk]
    refine ⟨c.1, ?_, fun hv => ?_⟩
    · rw [Run.Insert_ghUserCache]
      exact checkIfValidGHUser_cached gh r e c hc
    · exact hin c.2 _ e (by simp [hv])

/-- On a settled entity an iteration changes nothing, sends no request and
builds none, whatever the service would answer. -/
theorem Settled.entity_eq (gh : GitHub) (t : Target) (alias_ kubeAlias : Option Aliases)
    (r : Run) (e : String) (h : Settled t alias_ kubeAlias r e) :
    computeCount.entity gh t alias_ kubeAlias r e = some r := by
  rcases alias_ with _ | a
  · simp [Settled] at h
  · cases ha : a.RepoAliases e with
    | some xs =>
      simp only [Settled, ha] at h
      simp only [computeCount.entity, ha]
      rw [Run.Insert_absorb r t _ h]
    | none =>
      rcases kubeAlias with _ | k
      · simp only [computeCount.entity, ha]
        rw [Run.Insert_absorb r t [] (by simp)]
      · cases hk : k.RepoAliases e with
        | some xs =>
          simp only [Settled, ha, hk] at h
          simp only [computeCount.entity, ha, hk]
          rw [Run.Insert_absorb r t _ h]
        | none =>
          simp only [Settled, ha, hk] at h
          obtain ⟨b, hb, hin⟩ := h
          rw [computeCount.entity_literal gh t a k r e ha hk, checkIfValidGHUser_hit gh r e b hb]
          simp only [Option.some_bind, Option.some.injEq]
          apply Run.Insert_absorb
          intro n hn
          cases b with
          | true =>
            simp only [if_true, List.mem_singleton] at hn
            subst hn
            exact hin rfl
          | false => simp at hn

theorem foldlM_cons_some (f : Run → String → Option Run) (e : String) (es : List String)
    (r r2 : Run) :
    (e :: es).foldlM f r = some r2 ↔ ∃ r1, f r e = some r1 ∧ es.foldlM f r1 = some r2 := by
  rw [List.foldlM_cons]
  cases h : f r e <;> simp

/-- A loop of `computeCount` only extends the state and leaves each of its
entities settled. -/
theorem computeCount.loop_settles (gh : GitHub) (t : Target) (alias_ kubeAlias : Option Aliases)
    (es : List String) (r r2 : Run)
    (h : es.foldlM (computeCount.entity gh t alias_ kubeAlias) r = some r2) :
    r.Extends r2 ∧ ∀ e ∈ es, Settled t alias_ kubeAlias r2 e := by
  induction es generalizing r with
  | nil =>
    simp only [List.foldlM, pure, Option.some.injEq] at h
    subst h
    exact ⟨Run.Extends.refl r, by simp⟩
  | cons e es ih =>
    obtain ⟨r1, h1, h2⟩ := (foldlM_cons_some _ e es r r2).mp h
    obtain ⟨hx, hs⟩ := ih r1 h2
    refine ⟨Run.Extends.trans _ _ _ (computeCount.entity_extends gh t _ _ r r1 e h1) hx, ?_⟩
    intro x hxm
    rcases List.mem_cons.mp hxm with rfl | hxm
    · exact Settled.mono t _ _ r1 r2 x (computeCount.entity_settles gh t _ _ r r1 x h1) hx
    · exact hs x hxm

/-- A loop over settled entities is the identity. -/
theorem computeCount.loop_settled (gh : GitHub) (t : Target) (alias_ kubeAlias : Option Aliases)
    (es : List String) (r : Run) (h : ∀ e ∈ es, Settled t alias_ kubeAlias r e) :
    es.foldlM (computeCount.entity gh t alias_ kubeAlias) r = some r := by
  induction es with
  | nil => rfl
  | cons e es ih =>
    refine (foldlM_cons_some _ e es r r).mpr ⟨r, ?_, ih fun x hx => h x (List.mem_cons_of_mem _ hx)⟩
    exact Settled.entity_eq gh t _ _ r e (h e (List.mem_cons_self _ _))

/-- With a local table at hand an iteration returns when the validator can
answer for its entity. -/
theorem computeCount.entity_total (gh : GitHub) (t : Target) (a : Aliases)
    (kubeAlias : Option Aliases) (r : Run) (e : String) (hask : CanAsk gh r e) :
    ∃ r1, computeCount.entity gh t (some a) kubeAlias r e = some r1 := by
  cases ha : a.RepoAliases e with
  | some xs => exact ⟨r.Insert t xs, by simp only [computeCount.entity, ha]⟩
  | none =>
    rcases kubeAlias with _ | k
    · exact ⟨r.Insert t [], by simp only [computeCount.entity, ha]⟩
    · cases hk : k.RepoAliases e with
      | some xs => exact ⟨r.Insert t xs, by simp only [computeCount.entity, ha, hk]⟩
      | none =>
        obtain ⟨c, hc⟩ := checkIfValidGHUser_returns gh r e hask
        exact ⟨_, by rw [computeCount.entity_literal gh t a k r e ha hk, hc]; rfl⟩

theorem computeCount.loop_total (gh : GitHub) (t : Target) (a : Aliases)
    (kubeAlias : Option Aliases) (es : List String) (r : Run) (hask : ∀ e ∈ es, CanAsk gh r e) :
    ∃ r2, es.foldlM (computeCount.entity gh t (some a) kubeAlias) r = some r2 := by
  induction es generalizing r with
  | nil => exact ⟨r, rfl⟩
  | cons e es ih =>
    obtain ⟨r1, h1⟩ := computeCount.entity_total gh t a kubeAlias r e
      (hask e (List.mem_cons_self _ _))
    have hx := computeCount.entity_extends gh t _ _ r r1 e h1
    obtain ⟨r2, h2⟩ := ih r1 fun x hxm =>
      CanAsk_of_extends gh r r1 x (hask x (List.mem_cons_of_mem _ hxm)) hx
    exact ⟨r2, (foldlM_cons_some _ e es r r2).mpr ⟨r1, h1, h2⟩⟩

theorem computeCount_eq_some (gh : GitHub) (r r2 : Run) (rs ap : List String)
    (alias_ kubeAlias : Option Aliases) :
    computeCount gh r rs ap alias_ kubeAlias = some r2 ↔
      ∃ r1, rs.foldlM (computeCount.entity gh .reviewers alias_ kubeAlias) r = some r1 ∧
        ap.foldlM (computeCount.entity gh .approvers alias_ kubeAlias) r1 = some r2 := by
  unfold computeCount
  cases h : rs.foldlM (computeCount.entity gh .reviewers alias_ kubeAlias) r <;> simp

theorem computeCount_total (gh : GitHub) (r : Run) (rs ap : List String) (a : Aliases)
    (kubeAlias : Option Aliases) (hask : ∀ e ∈ rs ++ ap, CanAsk gh r e) :
    ∃ r2, computeCount gh r rs ap (some a) kubeAlias = some r2 := by
  obtain ⟨r1, h1⟩ := computeCount.loop_total gh .reviewers a kubeAlias rs r
    fun e he => hask e (List.mem_append_left _ he)
  have hx := (computeCount.loop_settles gh _ _ _ rs r r1 h1).1
  obtain ⟨r2, h2⟩ := computeCount.loop_total gh .approvers a kubeAlias ap r1
    fun e he => CanAsk_of_extends gh r r1 e (hask e (List.mem_append_right _ he)) hx
  exact ⟨r2, (computeCount_eq_some gh r r2 rs ap _ _).mpr ⟨r1, h1, h2⟩⟩

theorem computeCount_extends (gh : GitHub) (r r2 : Run) (rs ap : List String)
    (alias_ kubeAlias : Option Aliases) (h : computeCount gh r rs ap alias_ kubeAlias = some r2) :
    r.Extends r2 := by
  obtain ⟨r1, h1, h2⟩ := (computeCount_eq_some gh r r2 rs ap _ _).mp h
  exact Run.Extends.trans _ _ _ (computeCount.loop_settles gh _ _ _ rs r r1 h1).1
    (computeCount.loop_settles gh _ _ _ ap r1 r2 h2).1

/-- C8: aggregating the same declaration twice. For every state, every pair of
alias pointers and every pair of entity lists, when `computeCount` returns the
state `r1`, running it again on the same lists from `r1` returns `r1` itself,
even against a service `gh2` that answers differently or for which no request
can be built: the reviewers and approvers sets are what they were after the
first run, and no request is sent. The first run returns when the local table
is present and, for every entity, the name is cached or a request for it can be
built. -/
theorem computeCount_twice (gh gh2 : GitHub) (r : Run) (rs ap : List String)
    (alias_ kubeAlias : Option Aliases) :
    (∀ r1, computeCount gh r rs ap alias_ kubeAlias = some r1 →
      ∃ r2, computeCount gh2 r1 rs ap alias_ kubeAlias = some r2 ∧
        r2.oc.reviewers = r1.oc.reviewers ∧ r2.oc.approvers = r1.oc.approvers ∧
        r2.requests = r1.requests ∧ r2 = r1) ∧
    (alias_ ≠ none → (∀ e ∈ rs ++ ap, CanAsk gh r e) →
      ∃ r1, computeCount gh r rs ap alias_ kubeAlias = some r1) := by
  constructor
  · intro r1 h
    obtain ⟨rm, h1, h2⟩ := (computeCount_eq_some gh r r1 rs ap _ _).mp h
    obtain ⟨_, hs1⟩ := computeCount.loop_settles gh _ _ _ rs r rm h1
    obtain ⟨hx2, hs2⟩ := computeCount.loop_settles gh _ _ _ ap rm r1 h2
    refine ⟨r1, ?_, rfl, rfl, rfl, rfl⟩
    refine (computeCount_eq_some gh2 r1 r1 rs ap _ _).mpr ⟨r1, ?_, ?_⟩
    · exact computeCount.loop_settled gh2 _ _ _ rs r1
        fun e he => Settled.mono _ _ _ rm r1 e (hs1 e he) hx2
    · exact computeCount.loop_settled gh2 _ _ _ ap r1 hs2
  · intro hne hask
    rcases alias_ with _ | a
    · exact absurd rfl hne
    · exact computeCount_total gh r rs ap a kubeAlias hask

/-! ## The invariant of the aggregate sets -/

theorem Run.Sound_check (gh : GitHub) (P : String → Prop) (r : Run) (user : String)
    (c : Bool × Run) (hc : checkIfValidGHUser gh r user = some c) (h : r.Sound gh P) :
    c.2.Sound gh P := by
  refine ⟨fun t n hn => ?_, fun n hn => ?_⟩
  · rw [checkIfValidGHUser_get gh r user c hc t] at hn
    rcases h.1 t n hn with hp | hv
    · exact Or.inl hp
    · exact Or.inr (checkIfValidGHUser_keeps gh r user c hc n true hv)
  · rcases checkIfValidGHUser_true_origin gh r user c hc n hn with hv | ⟨rfl, hok⟩
    · exact h.2 n hv
    · exact ⟨_, hok⟩

theorem Run.Sound_Insert (gh : GitHub) (P : String → Prop) (r : Run) (t : Target)
    (items : List String) (h : r.Sound gh P)
    (hi : ∀ n ∈ items, P n ∨ r.oc.ghUserCache n = some true) : (r.Insert t items).Sound gh P := by
  refine ⟨fun u n hn => ?_, fun n hn => ?_⟩
  · rw [Run.Insert_ghUserCache]
    by_cases hu : u = t
    · subst hu
      rw [Run.Insert_get_same, Finset.mem_union, List.mem_toFinset] at hn
      rcases hn with hn | hn
      · exact h.1 u n hn
      · exact hi n hn
    · rw [Run.Insert_get_other _ _ _ _ hu] at hn
      exact h.1 u n hn
  · rw [Run.Insert_ghUserCache] at hn
    exact h.2 n hn

theorem computeCount.entity_sound (gh : GitHub) (P : String → Prop) (t : Target)
    (alias_ kubeAlias : Option Aliases) (r r1 : Run) (e : String)
    (hP : ∀ n, AliasTarget alias_ kubeAlias n → P n) (hs : r.Sound gh P)
    (h : computeCount.entity gh t alias_ kubeAlias r e = some r1) : r1.Sound gh P := by
  obtain ⟨a, rfl, hcase⟩ := computeCount.entity_cases gh t alias_ kubeAlias r r1 e h
  rcases hcase with ⟨xs, rfl, ha | ⟨_, _, rfl⟩ | ⟨_, k, rfl, hk⟩⟩ | ⟨k, c, _, rfl, _, hc, rfl⟩
  · exact Run.Sound_Insert gh P r t xs hs
      fun n hn => Or.inl (hP n ⟨a, Or.inl rfl, e, xs, ha, hn⟩)
  · exact Run.Sound_Insert gh P r t [] hs (by simp)
  · exact Run.Sound_Insert gh P r t xs hs
      fun n hn => Or.inl (hP n ⟨k, Or.inr rfl, e, xs, hk, hn⟩)
  · refine Run.Sound_Insert gh P c.2 t _ (Run.Sound_check gh P r e c hc hs) ?_
    intro n hn
    cases hv : c.1 with
    | true =>
      simp only [hv, if_true, List.mem_singleton] at hn
      subst hn
      right
      rw [checkIfValidGHUser_cached gh r n c hc, hv]
    | false => simp [hv] at hn

theorem computeCount.loop_sound (gh : GitHub) (P : String → Prop) (t : Target)
    (alias_ kubeAlias : Option Aliases) (es : List String) (r r2 : Run)
    (hP : ∀ n, AliasTarget alias_ kubeAlias n → P n) (hs : r.Sound gh P)
    (h : es.foldlM (computeCount.entity gh t alias_ kubeAlias) r = some r2) : r2.Sound gh P := by
  induction es generalizing r with
  | nil =>
    simp only [List.foldlM, pure, Option.some.injEq] at h
    subst h
    exact hs
  | cons e es ih =>
    obtain ⟨r1, h1, h2⟩ := (foldlM_cons_some _ e es r r2).mp h
    exact ih r1 (computeCount.entity_sound gh P t _ _ r r1 e hP hs h1) h2

theorem computeCount_sound (gh : GitHub) (P : String → Prop) (r r2 : Run) (rs ap : List String)
    (alias_ kubeAlias : Option Aliases)
    (hP : ∀ n, AliasTarget alias_ kubeAlias n → P n) (hs : r.Sound gh P)
    (h : computeCount gh r rs ap alias_ kubeAlias = some r2) : r2.Sound gh P := by
  obtain ⟨r1, h1, h2⟩ := (computeCount_eq_some gh r r2 rs ap _ _).mp h
  exact computeCount.loop_sound gh P _ _ _ ap r1 r2 hP
    (computeCount.loop_sound gh P _ _ _ rs r r1 hP hs h1) h2

theorem computeCount.calls_cons_some (gh : GitHub) (c : Call) (calls : List Call) (r r2 : Run) :
    computeCount.calls gh r (c :: calls) = some r2 ↔
      ∃ r1, computeCount gh r c.reviewers c.approvers c.alias_ c.kubeAlias = some r1 ∧
        computeCount.calls gh r1 calls = some r2 := by
  unfold computeCount.calls
  rw [List.foldlM_cons]
  cases h : computeCount gh r c.reviewers c.approvers c.alias_ c.kubeAlias <;> simp

theorem computeCount.calls_sound (gh : GitHub) (P : String → Prop) (calls : List Call)
    (r r2 : Run) (hP : ∀ c ∈ calls, ∀ n, AliasTarget c.alias_ c.kubeAlias n → P n)
    (hs : r.Sound gh P) (h : computeCount.calls gh r calls = some r2) : r2.Sound gh P := by
  induction calls generalizing r with
  | nil =>
    simp only [computeCount.calls, List.foldlM, pure, Option.some.injEq] at h
    subst h
    exact hs
  | cons c calls ih =>
    obtain ⟨r1, h1, h2⟩ := (computeCount.calls_cons_some gh c calls r r2).mp h
    exact ih r1 (fun c2 hc => hP c2 (List.mem_cons_of_mem _ hc))
      (computeCount_sound gh P r r1 _ _ _ _ (hP c (List.mem_cons_self _ _)) hs h1) h2

theorem computeCount.calls_extends (gh : GitHub) (calls : List Call) (r r2 : Run)
    (h : computeCount.calls gh r calls = some r2) : r.Extends r2 := by
  induction calls generalizing r with
  | nil =>
    simp only [computeCount.calls, List.foldlM, pure, Option.some.injEq] at h
    subst h
    exact Run.Extends.refl r
  | cons c calls ih =>
    obtain ⟨r1, h1, h2⟩ := (computeCount.calls_cons_some gh c calls r r2).mp h
    exact Run.Extends.trans _ _ _ (computeCount_extends gh r r1 _ _ _ _ h1) (ih r1 h2)

theorem computeCount.calls_total (gh : GitHub) (calls : List Call) (r : Run)
    (h : ∀ c ∈ calls, c.alias_ ≠ none)
    (hask : ∀ c ∈ calls, ∀ e ∈ c.reviewers ++ c.approvers, CanAsk gh r e) :
    ∃ r2, computeCount.calls gh r calls = some r2 := by
  induction calls generalizing r with
  | nil => exact ⟨r, rfl⟩
  | cons c calls ih =>
    have hc := h c (List.mem_cons_self _ _)
    cases ha : c.alias_ with
    | none => exact absurd ha hc
    | some a =>
      obtain ⟨r1, h1⟩ := computeCount_total gh r c.reviewers c.approvers a c.kubeAlias
        (hask c (List.mem_cons_self _ _))
      have hx := computeCount_extends gh r r1 _ _ _ _ h1
      obtain ⟨r2, h2⟩ := ih r1 (fun c2 hc2 => h c2 (List.mem_cons_of_mem _ hc2))
        fun c2 hc2 e he => CanAsk_of_extends gh r r1 e (hask c2 (List.mem_cons_of_mem _ hc2) e he) hx
      exact ⟨r2, (computeCount.calls_cons_some gh c calls r r2).mpr ⟨r1, by rw [ha]; exact h1, h2⟩⟩

/-- C6: the invariant of the aggregate sets. Start from empty `reviewers`,
empty `approvers` and an empty `ghUserCache`. After any sequence of
`computeCount` calls, with any entity lists and any alias tables, every name in
`reviewers` or `approvers` is a member of the expansion of some key of an alias
table passed to one of the calls, or its `ghUserCache` entry is true because a
request for it was answered with status 200. A literal name whose validation
failed or never happened is in neither set. The sequence runs to its end when
every call has a local table and a request can be built for every entity. -/
theorem computeCount_only_aliases_or_validated (gh : GitHub) (r : Run) (calls : List Call)
    (hr : r.oc.reviewers = ∅) (ha : r.oc.approvers = ∅)
    (hc : ∀ n, r.oc.ghUserCache n = none) :
    (∀ r2, computeCount.calls gh r calls = some r2 →
      ∀ n, n ∈ r2.oc.reviewers ∨ n ∈ r2.oc.approvers →
        (∃ c ∈ calls, AliasTarget c.alias_ c.kubeAlias n) ∨
        (r2.oc.ghUserCache n = some true ∧ ∃ i, isOK (gh.Do i n) = true)) ∧
    ((∀ c ∈ calls, c.alias_ ≠ none) →
      (∀ c ∈ calls, ∀ e ∈ c.reviewers ++ c.approvers, gh.NewRequest (userURL e) = none) →
      ∃ r2, computeCount.calls gh r calls = some r2) := by
  refine ⟨fun r2 h n hn => ?_, fun hal hreq =>
    computeCount.calls_total gh calls r hal fun c hcm e he => Or.inr (hreq c hcm e he)⟩
  have h0 : r.Sound gh (fun n => ∃ c ∈ calls, AliasTarget c.alias_ c.kubeAlias n) := by
    refine ⟨fun t n hn => ?_, fun n hn => ?_⟩
    · cases t
      · simp [ownerCounter.get, hr] at hn
      · simp [ownerCounter.get, ha] at hn
    · rw [hc n] at hn
      exact Option.noConfusion hn
  have hs := computeCount.calls_sound gh _ calls r r2 (fun c hc n hn => ⟨c, hc, hn⟩) h0 h
  have hmem : ∃ t, n ∈ r2.oc.get t := by
    rcases hn with hn | hn
    · exact ⟨.reviewers, hn⟩
    · exact ⟨.approvers, hn⟩
  obtain ⟨t, ht⟩ := hmem
  rcases hs.1 t n ht with hp | hv
  · exact Or.inl hp
  · exact Or.inr ⟨hv, hs.2 n hv⟩

/-! ## Set union correctness -/

theorem mem_unionList (xs ys : List String) (e : String) :
    e ∈ unionList xs ys ↔ e ∈ xs ∨ e ∈ ys := by
  unfold unionList
  rw [(List.perm_insertionSort _ _).mem_iff, List.mem_dedup, List.mem_append]

/-- Once an entity is settled, its resolution is the same in every later state,
whatever service the validator faces. -/
theorem Resolve_stable (gh gh2 : GitHub) (t : Target) (a k : Aliases) (r rf : Run) (e : String)
    (hs : Settled t (some a) (some k) r e) (hx : r.Extends rf) :
    Resolve (isValidIn gh r) a k e = Resolve (isValidIn gh2 rf) a k e := by
  cases ha : a.RepoAliases e with
  | some xs => simp only [Resolve, ha]
  | none =>
    cases hk : k.RepoAliases e with
    | some xs => simp only [Resolve, ha, hk]
    | none =>
      simp only [Settled, ha, hk] at hs
      obtain ⟨b, hb, _⟩ := hs
      simp only [Resolve, ha, hk, isValidIn_hit gh r e b hb,
        isValidIn_hit gh2 rf e b (hx.2 e b hb)]

/-- With both tables present an iteration adds the resolution of its entity,
read in the state it produces, to the set of its loop. -/
theorem computeCount.entity_resolves (gh : GitHub) (t : Target) (a k : Aliases) (r r1 : Run)
    (e : String) (h : computeCount.entity gh t (some a) (some k) r e = some r1) (n : String) :
    n ∈ r1.oc.get t ↔ n ∈ r.oc.get t ∨ n ∈ Resolve (isValidIn gh r1) a k e := by
  obtain ⟨a2, ha2, hcase⟩ := computeCount.entity_cases gh t _ _ r r1 e h
  cases ha2
  rcases hcase with ⟨xs, rfl, ha | ⟨_, hnone, _⟩ | ⟨ha, k2, hk2, hk⟩⟩ | ⟨k2, c, ha, hk2, hk, hc, rfl⟩
  · rw [Run.Insert_get_same, Finset.mem_union, List.mem_toFinset]
    simp only [Resolve, ha]
  · exact Option.noConfusion hnone
  · cases hk2
    rw [Run.Insert_get_same, Finset.mem_union, List.mem_toFinset]
    simp only [Resolve, ha, hk]
  · cases hk2
    have hcache : (c.2.Insert t (if c.1 = true then [e] else [])).oc.ghUserCache e = some c.1 := by
      rw [Run.Insert_ghUserCache]
      exact checkIfValidGHUser_cached gh r e c hc
    rw [Run.Insert_get_same, Finset.mem_union, List.mem_toFinset,
      checkIfValidGHUser_get gh r e c hc t]
    simp only [Resolve, ha, hk, isValidIn_hit gh _ e c.1 hcache]

/-- An iteration does not touch the set of the other loop. -/
theorem computeCount.entity_other (gh : GitHub) (t u : Target) (alias_ kubeAlias : Option Aliases)
    (r r1 : Run) (e : String) (h : computeCount.entity gh t alias_ kubeAlias r e = some r1)
    (hu : u ≠ t) : r1.oc.get u = r.oc.get u := by
  obtain ⟨a, _, hcase⟩ := computeCount.entity_cases gh t alias_ kubeAlias r r1 e h
  rcases hcase with ⟨xs, rfl, _⟩ | ⟨k, c, _, _, _, hc, rfl⟩
  · exact Run.Insert_get_other _ _ _ _ hu
  · rw [Run.Insert_get_other _ _ _ _ hu]
    exact checkIfValidGHUser_get gh r e c hc u

theorem computeCount.loop_other (gh : GitHub) (t u : Target) (alias_ kubeAlias : Option Aliases)
    (es : List String) (r r2 : Run)
    (h : es.foldlM (computeCount.entity gh t alias_ kubeAlias) r = some r2) (hu : u ≠ t) :
    r2.oc.get u = r.oc.get u := by
  induction es generalizing r with
  | nil =>
    simp only [List.foldlM, pure, Option.some.injEq] at h
    subst h
    rfl
  | cons e es ih =>
    obtain ⟨r1, h1, h2⟩ := (foldlM_cons_some _ e es r r2).mp h
    rw [ih r1 h2, computeCount.entity_other gh t u _ _ r r1 e h1 hu]

/-- With both tables present a loop adds the resolutions of its entities, read
in any later state `rf`, to its set. -/
theorem computeCount.loop_resolves (gh gh2 : GitHub) (t : Target) (a k : Aliases)
    (es : List String) (r r2 rf : Run)
    (h : es.foldlM (computeCount.entity gh t (some a) (some k)) r = some r2)
    (hf : r2.Extends rf) (n : String) :
    n ∈ r2.oc.get t ↔
      n ∈ r.oc.get t ∨
        ∃ e ∈ es, n ∈ Resolve (isValidIn gh2 rf) a k e := by
  induction es generalizing r with
  | nil =>
    simp only [List.foldlM, pure, Option.some.injEq] at h
    subst h
    simp
  | cons e es ih =>
    obtain ⟨r1, h1, h2⟩ := (foldlM_cons_some _ e es r r2).mp h
    have hx12 := (computeCount.loop_settles gh t _ _ es r1 r2 h2).1
    have hst := computeCount.entity_settles gh t _ _ r r1 e h1
    rw [ih r1 h2, computeCount.entity_resolves gh t a k r r1 e h1 n,
      Resolve_stable gh gh2 t a k r1 rf e hst (Run.Extends.trans _ _ _ hx12 hf)]
    simp only [List.mem_cons, exists_eq_or_imp, or_assoc]

theorem computeCount_resolves (gh gh2 : GitHub) (a k : Aliases) (rs ap : List String)
    (r r2 rf : Run) (h : computeCount gh r rs ap (some a) (some k) = some r2)
    (hf : r2.Extends rf) (n : String) :
    (n ∈ r2.oc.reviewers ↔ n ∈ r.oc.reviewers ∨
      ∃ e ∈ rs, n ∈ Resolve (isValidIn gh2 rf) a k e) ∧
    (n ∈ r2.oc.approvers ↔ n ∈ r.oc.approvers ∨
      ∃ e ∈ ap, n ∈ Resolve (isValidIn gh2 rf) a k e) := by
  obtain ⟨r1, h1, h2⟩ := (computeCount_eq_some gh r r2 rs ap _ _).mp h
  have hx12 := (computeCount.loop_settles gh _ _ _ ap r1 r2 h2).1
  have hrev := computeCount.loop_resolves gh gh2 .reviewers a k rs r r1 rf h1
    (Run.Extends.trans _ _ _ hx12 hf) n
  have happ := computeCount.loop_resolves gh gh2 .approvers a k ap r1 r2 rf h2 hf n
  have ho1 : r2.oc.get .reviewers = r1.oc.get .reviewers :=
    computeCount.loop_other gh .approvers .reviewers _ _ ap r1 r2 h2 (by decide)
  have ho2 : r1.oc.get .approvers = r.oc.get .approvers :=
    computeCount.loop_other gh .reviewers .approvers _ _ rs r r1 h1 (by decide)
  constructor
  · show n ∈ r2.oc.get .reviewers ↔ _
    rw [ho1]
    exact hrev
  · show n ∈ r2.oc.get .approvers ↔ n ∈ r.oc.get .approvers ∨ _
    rw [← ho2]
    exact happ

theorem getCounts.file_extends (env : Env) (gh : GitHub) (alias_ kubeAlias : Option Aliases)
    (r r1 : Run) (f : String) (h : getCounts.file env gh alias_ kubeAlias r f = some r1) :
    r.Extends r1 := by
  rcases hg : GetOwnersInfo env f with ⟨_ | info, _ | err⟩
  · simp [getCounts.file, hg] at h
  · simp only [getCounts.file, hg, Option.some.injEq] at h
    subst h
    exact Run.Extends.refl r
  · simp only [getCounts.file, hg] at h
    exact computeCount_extends gh r r1 _ _ _ _ h
  · simp only [getCounts.file, hg, Option.some.injEq] at h
    subst h
    exact Run.Extends.refl r

theorem getCounts.files_cons_some (env : Env) (gh : GitHub) (alias_ kubeAlias : Option Aliases)
    (f : String) (owners : List String) (r r2 : Run) :
    getCounts.files env gh r (f :: owners) alias_ kubeAlias = some r2 ↔
      ∃ r1, getCounts.file env gh alias_ kubeAlias r f = some r1 ∧
        getCounts.files env gh r1 owners alias_ kubeAlias = some r2 := by
  unfold getCounts.files
  exact foldlM_cons_some _ f owners r r2

theorem getCounts.files_extends (env : Env) (gh : GitHub) (alias_ kubeAlias : Option Aliases)
    (owners : List String) (r r2 : Run)
    (h : getCounts.files env gh r owners alias_ kubeAlias = some r2) : r.Extends r2 := by
  induction owners generalizing r with
  | nil =>
    simp only [getCounts.files, List.foldlM, pure, Option.some.injEq] at h
    subst h
    exact Run.Extends.refl r
  | cons f owners ih =>
    obtain ⟨r1, h1, h2⟩ := (getCounts.files_cons_some env gh _ _ f owners r r2).mp h
    exact Run.Extends.trans _ _ _ (getCounts.file_extends env gh _ _ r r1 f h1) (ih r1 h2)

/-- With a local table at hand the loop over the files returns as soon as no
file parses to a `nil` declaration without an error and the validator can
answer for every declared entity. -/
theorem getCounts.files_total (env : Env) (gh : GitHub) (a : Aliases)
    (kubeAlias : Option Aliases) (owners : List String) (r : Run)
    (hp : ∀ f ∈ owners, GetOwnersInfo env f ≠ (none, none))
    (hask : ∀ e, Declares env owners
      (fun info => info.Reviewers ++ info.RequiredReviewers ++ info.Approvers) e → CanAsk gh r e) :
    ∃ r2, getCounts.files env gh r owners (some a) kubeAlias = some r2 := by
  induction owners generalizing r with
  | nil => exact ⟨r, rfl⟩
  | cons f owners ih =>
    have hf := hp f (List.mem_cons_self _ _)
    have h1 : ∃ r1, getCounts.file env gh (some a) kubeAlias r f = some r1 := by
      rcases hg : GetOwnersInfo env f with ⟨_ | info, _ | err⟩
      · exact absurd hg hf
      · exact ⟨r, by simp only [getCounts.file, hg]⟩
      · obtain ⟨r1, hr1⟩ := computeCount_total gh r
          (unionList info.Reviewers info.RequiredReviewers) info.Approvers a kubeAlias (by
            intro e he
            refine hask e ⟨f, List.mem_cons_self _ _, info, hg, ?_⟩
            simp only [List.mem_append, mem_unionList] at he ⊢
            exact he)
        exact ⟨r1, by simp only [getCounts.file, hg]; exact hr1⟩
      · exact ⟨r, by simp only [getCounts.file, hg]⟩
    obtain ⟨r1, hr1⟩ := h1
    have hx := getCounts.file_extends env gh _ _ r r1 f hr1
    obtain ⟨r2, hr2⟩ := ih r1 (fun g hg => hp g (List.mem_cons_of_mem _ hg))
      fun e ⟨g, hg, info, hinfo, he⟩ =>
        CanAsk_of_extends gh r r1 e (hask e ⟨g, List.mem_cons_of_mem _ hg, info, hinfo, he⟩) hx
    exact ⟨r2, (getCounts.files_cons_some env gh _ _ f owners r r2).mpr ⟨r1, hr1, hr2⟩⟩

theorem Declares_cons (env : Env) (f : String) (owners : List String)
    (field : OwnersInfo → List String) (e : String) :
    Declares env (f :: owners) field e ↔
      (∃ info, GetOwnersInfo env f = (some info, none) ∧ e ∈ field info) ∨
        Declares env owners field e := by
  simp only [Declares, List.mem_cons, exists_eq_or_imp]

/-- One file with both tables present: the sets grow by the resolutions of the
entities this file declares. -/
theorem getCounts.file_resolves (env : Env) (gh gh2 : GitHub) (a k : Aliases) (r r1 rf : Run)
    (f : String) (h : getCounts.file env gh (some a) (some k) r f = some r1)
    (hf : r1.Extends rf) (n : String) :
    (n ∈ r1.oc.reviewers ↔ n ∈ r.oc.reviewers ∨
      ∃ e, (∃ info, GetOwnersInfo env f = (some info, none) ∧
          e ∈ info.Reviewers ++ info.RequiredReviewers) ∧
        n ∈ Resolve (isValidIn gh2 rf) a k e) ∧
    (n ∈ r1.oc.approvers ↔ n ∈ r.oc.approvers ∨
      ∃ e, (∃ info, GetOwnersInfo env f = (some info, none) ∧ e ∈ info.Approvers) ∧
        n ∈ Resolve (isValidIn gh2 rf) a k e) := by
  rcases hg : GetOwnersInfo env f with ⟨_ | info, _ | err⟩
  · simp [getCounts.file, hg] at h
  · simp only [getCounts.file, hg, Option.some.injEq] at h
    subst h
    simp
  · simp only [getCounts.file, hg] at h
    obtain ⟨hrev, happ⟩ := computeCount_resolves gh gh2 a k _ _ r r1 rf h hf n
    rw [hrev, happ]
    simp only [mem_unionList, Prod.mk.injEq, Option.some.injEq, and_true, exists_eq_left',
      List.mem_append]
  · simp only [getCounts.file, hg, Option.some.injEq] at h
    subst h
    simp

theorem getCounts.files_resolves (env : Env) (gh gh2 : GitHub) (a k : Aliases)
    (owners : List String) (r r2 rf : Run)
    (h : getCounts.files env gh r owners (some a) (some k) = some r2)
    (hf : r2.Extends rf) (n : String) :
    (n ∈ r2.oc.reviewers ↔ n ∈ r.oc.reviewers ∨
      ∃ e, Declares env owners (fun info => info.Reviewers ++ info.RequiredReviewers) e ∧
        n ∈ Resolve (isValidIn gh2 rf) a k e) ∧
    (n ∈ r2.oc.approvers ↔ n ∈ r.oc.approvers ∨
      ∃ e, Declares env owners (fun info => info.Approvers) e ∧
        n ∈ Resolve (isValidIn gh2 rf) a k e) := by
  induction owners generalizing r with
  | nil =>
    simp only [getCounts.files, List.foldlM, pure, Option.some.injEq] at h
    subst h
    simp [Declares]
  | cons f owners ih =>
    obtain ⟨r1, h1, h2⟩ := (getCounts.files_cons_some env gh _ _ f owners r r2).mp h
    have hx12 := getCounts.files_extends env gh _ _ owners r1 r2 h2
    obtain ⟨hrev1, happ1⟩ := getCounts.file_resolves env gh gh2 a k r r1 rf f h1
      (Run.Extends.trans _ _ _ hx12 hf) n
    obtain ⟨hrev2, happ2⟩ := ih r1 h2
    rw [hrev2, happ2, hrev1, happ1]
    simp only [Declares_cons, or_and_right, exists_or, or_assoc]
    exact ⟨trivial, trivial⟩

/-- C5: set union correctness. Start from empty aggregate sets and let the
per-file loop of `getCounts` run over any list of OWNERS files with a fixed pair
of present tables. In the state `r2` the loop returns, `reviewers` is the union,
over the declarations and over the names in `Reviewers` or `RequiredReviewers`,
of the resolution of the name, and `approvers` is the same union over the names
in `Approvers`. The resolution is `Resolve`, with `checkIfValidGHUser` asked in
`r2`. A file that fails to load is skipped. The loop returns when no file
yields a `nil` declaration without an error and, for every declared entity, the
name is cached or a request for it can be built. -/
theorem getCounts_sets_are_unions (env : Env) (gh : GitHub) (a k : Aliases)
    (owners : List String) (r : Run) (hr : r.oc.reviewers = ∅) (ha : r.oc.approvers = ∅) :
    (∀ r2, getCounts.files env gh r owners (some a) (some k) = some r2 →
      (∀ n, n ∈ r2.oc.reviewers ↔
        ∃ e, Declares env owners (fun info => info.Reviewers ++ info.RequiredReviewers) e ∧
          n ∈ Resolve (isValidIn gh r2) a k e) ∧
      (∀ n, n ∈ r2.oc.approvers ↔
        ∃ e, Declares env owners (fun info => info.Approvers) e ∧
          n ∈ Resolve (isValidIn gh r2) a k e)) ∧
    ((∀ f ∈ owners, GetOwnersInfo env f ≠ (none, none)) →
      (∀ e, Declares env owners
        (fun info => info.Reviewers ++ info.RequiredReviewers ++ info.Approvers) e →
          CanAsk gh r e) →
      ∃ r2, getCounts.files env gh r owners (some a) (some k) = some r2) := by
  refine ⟨fun r2 h => ⟨fun n => ?_, fun n => ?_⟩,
    fun hp hask => getCounts.files_total env gh a (some k) owners r hp hask⟩
  · rw [(getCounts.files_resolves env gh gh a k owners r r2 r2 h (Run.Extends.refl r2) n).1, hr]
    simp
  · rw [(getCounts.files_resolves env gh gh a k owners r r2 r2 h (Run.Extends.refl r2) n).2, ha]
    simp

/-! ## Absent alias tables and groups that are not SIGs -/

/-- With a `nil` fallback an entity that is not a local alias contributes
nothing and is never validated: the iteration returns the state unchanged. -/
theorem computeCount.entity_nil_fallback (gh : GitHub) (t : Target) (a : Aliases) (r : Run)
    (e : String) (h : a.RepoAliases e = none) :
    computeCount.entity gh t (some a) none r e = some r :=
  Settled.entity_eq gh t (some a) none r e (by simp [Settled, h])

/-- C4, evaluated where the code departs from it. The repository is not the
canonical one and no checkout of the canonical repository exists, so
`GetOwnerAliases` returns `nil` with an error and `getCounts` hands that `nil`
to `computeCount`. The OWNERS file names the approver `carol`, an existing
account, which is in neither table. The run leaves `approvers` empty and sends
no request, whereas with an empty fallback table the same files put `carol`
into `approvers` after validating her. -/
theorem getCounts_nil_fallback_skips_validation :
    (getCounts.alias exEnv ".").isSome = true ∧
    (getCounts.kubeAlias exEnv exURL (getCounts.alias exEnv ".")).isNone = true ∧
    (getCounts.repo exEnv exGitHub (fun _ => false) Run.init exURL "." ["./OWNERS"]).map
        (fun r => (r.oc.approvers, r.requests)) = some (∅, []) ∧
    (getCounts.files exEnv exGitHub Run.init ["./OWNERS"] (getCounts.alias exEnv ".")
        (some exEmpty)).map (fun r => (r.oc.approvers, r.requests))
      = some ({"carol"}, ["bob", "team-a", "carol"]) := by
  decide

/-- C9, evaluated where the code departs from it. The OWNERS_ALIASES file of the
repository exists but does not parse: `GetOwnerAliases` returns `nil` with an
error, `getCounts` logs the error and keeps the `nil`, and the first entity
looked up in `computeCount` dereferences it, so the run panics. When the file
is absent the table is the empty mapping built beforehand. -/
theorem getCounts_unparsable_aliases_panics :
    (GetOwnersAliasesFile exEnvBrokenAliases ".") = ("./OWNERS_ALIASES", none) ∧
    (GetOwnerAliases exEnvBrokenAliases "./OWNERS_ALIASES").2
      = some "yaml: did not find expected node content" ∧
    (getCounts.alias exEnvBrokenAliases ".").isNone = true ∧
    (getCounts.repo exEnvBrokenAliases exGitHub (fun _ => false) Run.init exURL "." ["./OWNERS"]).isNone
      = true ∧
    (getCounts.alias exEnv ".").isSome = true := by
  decide

/-- C10, evaluated where the code departs from it. The group name
`committee-steering` passes `validateGroup` and the registry has a committee
with that `Dir` whose subproject declares a root path, yet `getOwnersRoots`
returns no root path at all: it only walks `ctx.Sigs`. -/
theorem getOwnersRoots_skips_committees :
    validateGroup "committee-steering" = true ∧
    (∃ g ∈ exContext.Committees, g.Dir = "committee-steering" ∧
      ∃ sp ∈ g.Subprojects,
        "https://raw.githubusercontent.com/kubernetes/steering/main/OWNERS" ∈ sp.Owners) ∧
    getOwnersRoots exContext "committee-steering" = [] ∧
    getOwnersRoots exContext "sig-testing" = [exURL] := by
  refine ⟨by decide, ⟨_, List.mem_singleton.mpr rfl, rfl, _, List.mem_singleton.mpr rfl,
    List.mem_singleton.mpr rfl⟩, by decide, by decide⟩

/-- C7, evaluated where the code departs from it. The name `%zz` is not cached
and no request can be built for it: `http.NewRequest` returns a `nil` request
with an error that line 247 discards, and line 248 dereferences the request.
The call returns no boolean at all, and an OWNERS entry `%zz` that is in
neither table makes `computeCount` panic. A transport error of `client.Do`, by
contrast, is returned and stored as false. -/
theorem checkIfValidGHUser_nil_request_panics :
    Run.init.oc.ghUserCache "%zz" = none ∧
    exGitHub.NewRequest (userURL "%zz") = some "invalid URL escape %zz" ∧
    (checkIfValidGHUser exGitHub Run.init "%zz").isNone = true ∧
    (computeCount exGitHub Run.init ["%zz"] [] (some exEmpty) (some exEmpty)).isNone = true ∧
    (checkIfValidGHUser exFlaky { Run.init with requests := ["bob"] } "carol").map
        (fun c => (c.1, c.2.oc.ghUserCache "carol", c.2.requests))
      = some (false, some false, ["bob", "carol"]) := by
  decide

/-! ## The theorems at concrete inputs -/

/-- The first scenario of the specification: `team-a` expands to `alice` and
`bob`, the required reviewer `bob` is not an account, `carol` is. -/
theorem getCounts.files_scenario :
    (getCounts.files exEnv exGitHub Run.init ["./OWNERS"] (some exLocal) (some exEmpty)).map
        (fun r => (r.oc.reviewers, r.oc.approvers, r.requests))
      = some ({"bob", "alice"}, {"carol"}, ["bob", "carol"]) := by
  decide


theorem computeCount_literal_iff_valid_witness :
    exLocal.RepoAliases "dave" = none ∧ exEmpty.RepoAliases "dave" = none ∧
    CanAsk exGitHub Run.init "dave" ∧
    (checkIfValidGHUser exGitHub Run.init "dave").map Prod.fst = some false ∧
    ∃ r0, computeCount.entity exGitHub .reviewers (some exLocal) (some exEmpty) Run.init "dave"
        = some r0 ∧ r0.oc.reviewers = ∅ := by
  have hask : CanAsk exGitHub Run.init "dave" := Or.inr (by decide)
  have hv : (checkIfValidGHUser exGitHub Run.init "dave").map Prod.fst = some false := by decide
  refine ⟨by decide, by decide, hask, hv, ?_⟩
  obtain ⟨_, hfalse, _, hret, _⟩ :=
    computeCount_literal_iff_valid exGitHub Run.init .reviewers exLocal exEmpty "dave"
      (by decide) (by decide)
  obtain ⟨⟨b, r0⟩, hc⟩ := hret hask
  rw [hc] at hv
  simp only [Option.map_some', Option.some.injEq] at hv
  subst hv
  exact ⟨r0, (hfalse r0 hc).1, (hfalse r0 hc).2 .reviewers⟩

theorem computeCount_local_alias_first_witness :
    exLocal.RepoAliases "team-a" = some ["alice", "bob"] ∧
    computeCount.entity exGitHub .reviewers (some exLocal) (some exFallback) Run.init "team-a"
      = some (Run.init.Insert .reviewers ["alice", "bob"]) ∧
    (Run.init.Insert .reviewers ["alice", "bob"]).requests = [] :=
  ⟨by decide,
    (computeCount_local_alias_first exGitHub Run.init .reviewers exLocal (some exFallback)
      "team-a" ["alice", "bob"] (by decide)).1,
    (computeCount_local_alias_first exGitHub Run.init .reviewers exLocal (some exFallback)
      "team-a" ["alice", "bob"] (by decide)).2.2.2.2.1⟩

theorem computeCount_fallback_alias_no_validation_witness :
    exEmpty.RepoAliases "team-b" = none ∧ exFallback.RepoAliases "team-b" = some ["erin"] ∧
    computeCount.entity exGitHub .approvers (some exEmpty) (some exFallback) Run.init "team-b"
      = some (Run.init.Insert .approvers ["erin"]) ∧
    (Run.init.Insert .approvers ["erin"]).requests = [] :=
  ⟨by decide, by decide,
    (computeCount_fallback_alias_no_validation exGitHub Run.init .approvers exEmpty exFallback
      "team-b" ["erin"] (by decide) (by decide)).1,
    (computeCount_fallback_alias_no_validation exGitHub Run.init .approvers exEmpty exFallback
      "team-b" ["erin"] (by decide) (by decide)).2.2.2.2.1⟩

theorem getCounts_sets_are_unions_witness :
    Run.init.oc.reviewers = ∅ ∧ Run.init.oc.approvers = ∅ ∧
    (∀ f ∈ ["./OWNERS"], GetOwnersInfo exEnv f ≠ (none, none)) ∧
    (∀ e, Declares exEnv ["./OWNERS"]
      (fun info => info.Reviewers ++ info.RequiredReviewers ++ info.Approvers) e →
        CanAsk exGitHub Run.init e) ∧
    ∃ r2, getCounts.files exEnv exGitHub Run.init ["./OWNERS"] (some exLocal) (some exEmpty)
        = some r2 ∧
      (∀ n, n ∈ r2.oc.reviewers ↔
        ∃ e, Declares exEnv ["./OWNERS"] (fun info => info.Reviewers ++ info.RequiredReviewers) e ∧
          n ∈ Resolve (isValidIn exGitHub r2) exLocal exEmpty e) ∧
      (∀ n, n ∈ r2.oc.approvers ↔
        ∃ e, Declares exEnv ["./OWNERS"] (fun info => info.Approvers) e ∧
          n ∈ Resolve (isValidIn exGitHub r2) exLocal exEmpty e) := by
  have hp : ∀ f ∈ ["./OWNERS"], GetOwnersInfo exEnv f ≠ (none, none) := by decide
  have hask : ∀ e, Declares exEnv ["./OWNERS"]
      (fun info => info.Reviewers ++ info.RequiredReviewers ++ info.Approvers) e →
        CanAsk exGitHub Run.init e := by
    rintro e ⟨f, hf, info, hinfo, he⟩
    rw [List.mem_singleton] at hf
    subst hf
    have hg : GetOwnersInfo exEnv "./OWNERS"
        = (some { Approvers := ["carol"], Reviewers := ["team-a"], RequiredReviewers := ["bob"] },
            none) := by decide
    rw [hg] at hinfo
    simp only [Prod.mk.injEq, Option.some.injEq, and_true] at hinfo
    subst hinfo
    simp only [List.mem_append, List.mem_singleton] at he
    rcases he with (rfl | rfl) | rfl <;> exact Or.inr (by decide)
  obtain ⟨hsets, htotal⟩ :=
    getCounts_sets_are_unions exEnv exGitHub exLocal exEmpty ["./OWNERS"] Run.init rfl rfl
  obtain ⟨r2, h2⟩ := htotal hp hask
  exact ⟨rfl, rfl, hp, hask, r2, h2, hsets r2 h2⟩

theorem computeCount_only_aliases_or_validated_witness :
    Run.init.oc.reviewers = ∅ ∧ Run.init.oc.approvers = ∅ ∧
    (∀ n, Run.init.oc.ghUserCache n = none) ∧
    (∀ e ∈ ["team-a", "dave", "carol"], exGitHub.NewRequest (userURL e) = none) ∧
    ∃ r2, computeCount.calls exGitHub Run.init
        [{ reviewers := ["team-a", "dave"], approvers := ["carol"],
           alias_ := some exLocal, kubeAlias := some exEmpty }] = some r2 := by
  have hreq : ∀ e ∈ ["team-a", "dave", "carol"], exGitHub.NewRequest (userURL e) = none := by
    decide
  refine ⟨rfl, rfl, fun _ => rfl, hreq, ?_⟩
  refine (computeCount_only_aliases_or_validated exGitHub Run.init
    [{ reviewers := ["team-a", "dave"], approvers := ["carol"],
       alias_ := some exLocal, kubeAlias := some exEmpty }] rfl rfl (fun _ => rfl)).2
    (by simp) ?_
  intro c hc e he
  rw [List.mem_singleton] at hc
  subst hc
  exact hreq e he

theorem computeCount_twice_witness :
    (∀ e ∈ ["dave"] ++ ["carol"], CanAsk exFlaky Run.init e) ∧
    ∃ r1, computeCount exFlaky Run.init ["dave"] ["carol"] (some exLocal) (some exEmpty)
        = some r1 ∧
      computeCount exGitHub r1 ["dave"] ["carol"] (some exLocal) (some exEmpty) = some r1 := by
  have hask : ∀ e ∈ ["dave"] ++ ["carol"], CanAsk exFlaky Run.init e := fun _ _ => Or.inr rfl
  obtain ⟨hsame, htotal⟩ :=
    computeCount_twice exFlaky exGitHub Run.init ["dave"] ["carol"] (some exLocal) (some exEmpty)
  obtain ⟨r1, h1⟩ := htotal (by simp) hask
  obtain ⟨r2, h2, _, _, _, heq⟩ := hsame r1 h1
  rw [heq] at h2
  exact ⟨hask, r1, h1, h2⟩

end OwnersCounts
